import Mathlib

/-!
Verification development for the inventaireAI inventory reconciliation
engine (`counter.py`, `review_gui.py`, `inventory_ai.py`).

The Python source keeps one spreadsheet row per detected object.  Numeric
spreadsheet cells may hold either a number or a raw string (pandas object
dtype), which we model with `Cell`.  Text columns are plain strings; a
missing pandas value stringifies to "nan", which we represent by the
literal string "nan", exactly as the code sees it after `str(...)`.
File-system effects (image compression, thumbnails, renames) are modelled
by their visible results: the filename written back to the row, an opaque
thumbnail payload string, and an explicit association-list file system for
the atomic-save analysis.
-/

/-- A spreadsheet cell of a numeric column: either an actual number or a raw
string left behind by a failed coercion (pandas object dtype). -/
inductive Cell where
  | num : ℚ → Cell
  | str : String → Cell
deriving DecidableEq, Repr

/-- One inventory row (`InventoryRecord`), mirroring the CSV columns used by
`counter.py` and `review_gui.py`: ID, Fichier, Image, Categorie,
Categorie ID, Fiabilite, Prix Unitaire, Prix Neuf Estime, Prix Total, Nom,
Etat, Quantite, plus the Commentaire column added by the review GUI. -/
structure Record where
  id : ℤ
  fichier : String
  nom : String
  categorie : String
  categorieId : String
  etat : String
  commentaire : String
  image : String
  fiabilite : Cell
  quantite : Cell
  prixUnitaire : Cell
  prixNeuf : Cell
  prixTotal : Cell
deriving DecidableEq, Repr

/-- One decoded AI result object: the JSON dictionary shape produced by
`analyze_image` / `analyze_image_multiple` (`nom`, `categorie`,
`categorie_id`, `quantite`, `etat`, `prix_unitaire_estime`,
`prix_neuf_estime`, `fiabilite`, optional `box_2d`). -/
structure ObjectResult where
  nom : String
  categorie : String
  categorieId : String
  quantite : ℤ
  etat : String
  prixUnitaire : ℚ
  prixNeuf : ℚ
  fiabilite : ℤ
  box2d : Option (ℤ × ℤ × ℤ × ℤ)
deriving DecidableEq, Repr

/-- Decimal digits to a natural number, most significant first. -/
def digitsToNat (cs : List Char) : ℕ :=
  cs.foldl (fun n c => n * 10 + (c.toNat - '0'.toNat)) 0

/-- Python `str.strip()` on a character list: drop leading and trailing
whitespace. -/
def pyStripChars (cs : List Char) : List Char :=
  ((cs.dropWhile Char.isWhitespace).reverse.dropWhile Char.isWhitespace).reverse

/-- Python `str.strip()`. -/
def pyStrip (s : String) : String := String.mk (pyStripChars s.data)

/-- Python `str.replace(',', '.')`: replace every comma by a dot. -/
def pyReplaceComma (s : String) : String :=
  String.mk (s.data.map (fun c => if c = ',' then '.' else c))

/-- Unsigned part of Python `float(s)`: digits with an optional fractional
part ("12", "3.5", ".5", "5.").  Exotic accepted forms (exponents, "inf",
"nan") are not modelled; no claim depends on them. -/
def parseFloatBody : List Char → Option ℚ := fun cs =>
  let intPart := cs.takeWhile Char.isDigit
  let rest := cs.dropWhile Char.isDigit
  match rest with
  | [] =>
      if intPart.isEmpty then none
      else some (digitsToNat intPart : ℚ)
  | '.' :: frac =>
      if frac.all Char.isDigit && !(intPart.isEmpty && frac.isEmpty) then
        some ((digitsToNat intPart : ℚ)
          + (digitsToNat frac : ℚ) / ((10 : ℚ) ^ frac.length))
      else none
  | _ => none

/-- Model of Python `float(s)`: optional surrounding whitespace, optional
sign, then a decimal literal; `none` when Python would raise. -/
def parseFloat? (s : String) : Option ℚ :=
  match pyStripChars s.data with
  | '-' :: rest => (parseFloatBody rest).map (fun q => -q)
  | '+' :: rest => parseFloatBody rest
  | cs => parseFloatBody cs

/-- Model of Python `int(s)` on a string: optional surrounding whitespace,
optional sign, then decimal digits only (`int("3.5")` raises). -/
def parseInt? (s : String) : Option ℤ :=
  let signed : List Char → Option ℤ := fun cs =>
    if cs.isEmpty || !cs.all Char.isDigit then none
    else some (digitsToNat cs : ℤ)
  match pyStripChars s.data with
  | '-' :: rest => (signed rest).map (fun n => -n)
  | '+' :: rest => signed rest
  | cs => signed cs

/-- Python `int(x)` on a number: truncation toward zero. -/
def truncQ (q : ℚ) : ℤ := q.num.tdiv q.den

/-- Python `float(cell)`: a numeric cell is returned as is, a string cell is
parsed; `none` when Python would raise `ValueError`. -/
def cellFloat? (c : Cell) : Option ℚ :=
  match c with
  | .num q => some q
  | .str s => parseFloat? s

/-- `int(float(cell))` with `except: 0` — the reliability coercion in
`counter.py` (`try: fiabilite_val = int(float(fiabilite_val)); except: 0`). -/
def cellToIntD0 (c : Cell) : ℤ :=
  match cellFloat? c with
  | some q => truncQ q
  | none => 0

/-- `pd.to_numeric(x, errors='coerce').fillna(0)` applied to one cell, as
`review_gui.load_data` does for the Fiabilite column. -/
def cellNum0 (c : Cell) : ℚ :=
  match cellFloat? c with
  | some q => q
  | none => 0

/-- Maximum of an integer column, `none` on an empty column — the model of
pandas `Series.max()` which raises/returns NaN on empty input. -/
def colMax : List ℤ → Option ℤ
  | [] => none
  | x :: xs => some (xs.foldl max x)

/-! ## counter.py — Phase 1: sync & discovery -/

/-- `new_files = [img for img in images if img not in existing_files]` where
`existing_files` is the set of the ledger's Fichier values. -/
def newFiles (df : List Record) (images : List String) : List String :=
  images.filter (fun f => !(df.map (·.fichier)).contains f)

/-- `next_id` at the start of Phase 1: `max(existing ids) + 1` on a
non-empty ledger, `1` on an empty one. -/
def nextIdInit (df : List Record) : ℤ :=
  match colMax (df.map (·.id)) with
  | some m => m + 1
  | none => 1

/-- The placeholder row built for a newly discovered file:
`row = {col: "" for col in full_columns}` then `ID`, `Fichier`,
`Fiabilite = 0`, `Quantite = 0`. -/
def mkPlaceholder (i : ℤ) (fn : String) : Record :=
  { id := i, fichier := fn, nom := "", categorie := "", categorieId := "",
    etat := "", commentaire := "", image := "",
    fiabilite := .num 0, quantite := .num 0,
    prixUnitaire := .str "", prixNeuf := .str "", prixTotal := .str "" }

/-- The `for img in new_files` loop: one placeholder per file, `next_id`
incremented each time. -/
def mkPlaceholders (nid : ℤ) : List String → List Record
  | [] => []
  | f :: fs => mkPlaceholder nid f :: mkPlaceholders (nid + 1) fs

/-- Phase 1 of `process_inventory`: append a placeholder row for every file
not yet named in the ledger (the `pd.concat` followed by the immediate
`to_csv`; persistence itself is I/O and is represented by the returned
ledger value). -/
def addPlaceholders (df : List Record) (images : List String) : List Record :=
  df ++ mkPlaceholders (nextIdInit df) (newFiles df images)

/-! ## counter.py — Phase 2: processing / analysis merge -/

/-- `is_processed` in `process_inventory`:
`nom_val = str(row.get("Nom", "")).strip()` is neither empty nor the pandas
missing marker "nan", and the coerced Fiabilite is positive. -/
def isProcessed (r : Record) : Bool :=
  let nomVal := pyStrip r.nom
  (nomVal != "" && nomVal != "nan") && decide (0 < cellToIntD0 r.fiabilite)

/-- A row is selected for analysis when its filename is non-empty
(`if not filename: continue`), it is not already processed, and its file
still exists on disk (`disk` is the set of filenames present in the
folder). -/
def selectedForAnalysis (disk : List String) (r : Record) : Bool :=
  r.fichier != "" && !(isProcessed r) && disk.contains r.fichier

/-- The per-result field mapping `update_data` of the Phase-2 merge: prices
are coerced with `int(float(...))`, quantity with `int(...)`,
`Prix Total = prix_unitaire * quantite`, both Categorie columns receive
`categorie_id`, Fiabilite receives the raw score, and Fichier/Image receive
the (possibly renamed) filename and the freshly computed thumbnail. -/
def mergeFields (r : Record) (item : ObjectResult) (newFilename imageB64 : String) : Record :=
  let pu := truncQ item.prixUnitaire
  let pn := truncQ item.prixNeuf
  { r with
    nom := item.nom,
    categorie := item.categorieId,
    categorieId := item.categorieId,
    fiabilite := .num (item.fiabilite : ℚ),
    quantite := .num (item.quantite : ℚ),
    etat := item.etat,
    prixUnitaire := .num (pu : ℚ),
    prixNeuf := .num (pn : ℚ),
    prixTotal := .num ((pu * item.quantite : ℤ) : ℚ),
    fichier := newFilename,
    image := imageB64 }

/-- Fallback row; `df.at`/`df.loc` on a valid index never needs it. -/
def emptyRecord : Record :=
  { id := 0, fichier := "", nom := "", categorie := "", categorieId := "",
    etat := "", commentaire := "", image := "",
    fiabilite := .str "", quantite := .str "", prixUnitaire := .str "",
    prixNeuf := .str "", prixTotal := .str "" }

/-- `new_id = 0; try: new_id = df["ID"].astype(int).max() + 1; except: pass` -/
def freshId (df : List Record) : ℤ :=
  match colMax (df.map (·.id)) with
  | some m => m + 1
  | none => 0

/-- One appended row of the merge loop (`i >= 1` in
`for i, item in enumerate(results)`): `new_row = df.loc[index].to_dict()`
(a copy of the current row `i`), overwritten with the element's mapped
fields, then given the fresh id `df["ID"].astype(int).max() + 1` recomputed
on the ledger as it stands, and appended. -/
def mergeAppendStep (i : ℕ) (fn img : String) (acc : List Record)
    (item : ObjectResult) : List Record :=
  acc ++ [{ mergeFields ((acc[i]?).getD emptyRecord) item fn img with
            id := freshId acc }]

/-- The `for i, item in enumerate(results)` merge loop of `process_inventory`:
the first element overwrites row `i` in place, every further element appends
a copy of the current row `i` overwritten with its own fields and carrying a
fresh id recomputed from the current ledger. -/
def mergeAll (df : List Record) (i : ℕ) (results : List ObjectResult)
    (fn img : String) : List Record :=
  match results with
  | [] => df
  | first :: rest =>
    rest.foldl (mergeAppendStep i fn img)
      (df.set i (mergeFields ((df[i]?).getD emptyRecord) first fn img))

/-- One iteration of the Phase-2 row loop: analyze and merge when the row is
selected, skip otherwise.  The second component counts analysis calls.
Renaming only happens in targeted mode; in the default mode modelled here
the filename is unchanged and the thumbnail payload is opaque. -/
def phase2Step (disk : List String) (analyze : String → List ObjectResult)
    (st : List Record × ℕ) (p : ℕ × Record) : List Record × ℕ :=
  if selectedForAnalysis disk p.2 then
    (mergeAll st.1 p.1 (analyze p.2.fichier) p.2.fichier "", st.2 + 1)
  else st

/-- Phase 2 of `process_inventory`: iterate over the rows present when the
loop starts (`df.iterrows()` iterates the frame captured at call time), in
order, threading the ledger state. -/
def phase2 (disk : List String) (analyze : String → List ObjectResult)
    (df : List Record) : List Record × ℕ :=
  df.enum.foldl (phase2Step disk analyze) (df, 0)

/-! ## review_gui.py — review queue (load_data) -/

/-- Distinct Fichier values in first-occurrence order (the grouping keys). -/
def distinctFiles (df : List Record) : List String :=
  df.foldl (fun acc r => if acc.contains r.fichier then acc else acc ++ [r.fichier]) []

/-- `groupby(file_col)["Fiabilite"].min()` for one file: minimum coerced
reliability over the file's records (`0` for a file with no record; the
queue only ever uses files that have records). -/
def minFiab (df : List Record) (f : String) : ℚ :=
  match (df.filter (fun r => r.fichier == f)).map (fun r => cellNum0 r.fiabilite) with
  | [] => 0
  | x :: xs => xs.foldl min x

/-- The review queue built by `load_data`: every distinct source file
(`review_candidates = self.df` — nothing is filtered out), keys sorted
as pandas `groupby` sorts them, then `sort_values("Fiabilite")` ascending
on each file's minimum reliability. -/
def loadQueue (df : List Record) : List String :=
  let files := List.insertionSort (fun a b => a ≤ b) (distinctFiles df)
  List.insertionSort (fun a b => minFiab df a ≤ minFiab df b) files

/-! ## review_gui.py — field mutation (save_field_to_df, validate_item) -/

/-- The editable form fields plus the read-only ones guarded against
autosave. -/
inductive FieldName where
  | fId | fFichier | fFiabilite
  | fCommentaire | fNom | fCategorie | fEtat
  | fQuantite | fPrixUnitaire | fPrixNeuf
deriving DecidableEq, Repr

/-- The Categorie name-to-id loop: first category whose display name matches
the entered value wins, otherwise the raw value is kept. -/
def catNameToId (cmap : List (String × String)) (nameVal : String) : String :=
  match cmap.find? (fun p => p.2 == nameVal) with
  | some p => p.1
  | none => nameVal

/-- The Prix Total recomputation block shared by `save_field_to_df`,
`validate_item`, `scan_multi_item` and `_apply_scan_result`:
`try: q = float(Quantite); p = float(Prix Unitaire); Prix Total = q * p;
except: pass`. -/
def recomputeTotal (r : Record) : Record :=
  match cellFloat? r.quantite, cellFloat? r.prixUnitaire with
  | some q, some p => { r with prixTotal := .num (q * p) }
  | _, _ => r

/-- `save_field_to_df`: autosave of one form field on focus loss.  Read-only
fields are ignored; Quantite goes through `int(...)`, prices through
`float(....replace(',', '.'))`, each keeping the raw entry string on a parse
failure; then Prix Total is recomputed. -/
def save_field_to_df (cmap : List (String × String)) (r : Record)
    (f : FieldName) (entry : String) : Record :=
  match f with
  | .fId | .fFichier | .fFiabilite => r
  | _ =>
    let r1 :=
      match f with
      | .fCommentaire => { r with commentaire := entry }
      | .fNom => { r with nom := entry }
      | .fCategorie => { r with categorie := catNameToId cmap entry }
      | .fEtat => { r with etat := entry }
      | .fQuantite =>
          { r with quantite :=
              match parseInt? entry with
              | some n => .num (n : ℚ)
              | none => .str entry }
      | .fPrixUnitaire =>
          { r with prixUnitaire :=
              match parseFloat? (pyReplaceComma entry) with
              | some q => .num q
              | none => .str entry }
      | .fPrixNeuf =>
          { r with prixNeuf :=
              match parseFloat? (pyReplaceComma entry) with
              | some q => .num q
              | none => .str entry }
      | _ => r
    recomputeTotal r1

/-- `validate_item`: commit every form field into the active record (failed
numeric parses leave the stored cell unchanged), recompute Prix Total, then
force Fiabilite to 100. -/
def validate_item (cmap : List (String × String)) (r : Record)
    (nomE catE etatE commE qE puE pnE : String) : Record :=
  let r1 := { r with nom := nomE, categorie := catNameToId cmap catE,
                     etat := etatE, commentaire := commE }
  let r2 := match parseInt? qE with
            | some n => { r1 with quantite := .num (n : ℚ) }
            | none => r1
  let r3 := match parseFloat? (pyReplaceComma puE) with
            | some q => { r2 with prixUnitaire := .num q }
            | none => r2
  let r4 := match parseFloat? (pyReplaceComma pnE) with
            | some q => { r3 with prixNeuf := .num q }
            | none => r3
  let r5 := recomputeTotal r4
  { r5 with fiabilite := .num 100 }

/-! ## review_gui.py — multi-object rescan (scan_multi_item) -/

/-- One appended sibling row of `scan_multi_item`: a copy of the active row,
fresh id, provenance comment, the result's fields (numeric ones through
`float(str(...))`, kept as floats), then the Prix Total recomputation. -/
def scan_multi_new_row (template : Record) (item : ObjectResult) (newId : ℤ) : Record :=
  let r1 := { template with
    id := newId,
    fiabilite := .num (item.fiabilite : ℚ),
    commentaire := "Ajouté via Scan Multi",
    nom := item.nom,
    categorie := item.categorie,
    etat := item.etat,
    quantite := .num (item.quantite : ℚ),
    prixUnitaire := .num item.prixUnitaire,
    prixNeuf := .num item.prixNeuf }
  recomputeTotal r1

/-! ## review_gui.py — retake workflow (mark_as_retake) -/

/-- Result of the retake workflow: the surviving ledger, the review queue,
and whether the physical image is still present at its prior path. -/
structure RetakeResult where
  df : List Record
  queue : List String
  originalKept : Bool
deriving DecidableEq, Repr

/-- `df[df[col] == filename].index.tolist()`: the positions (pandas row
labels) of the rows satisfying `p`, counting from `k`. -/
def indicesWhereFrom (p : Record → Bool) : ℕ → List Record → List ℕ
  | _, [] => []
  | k, r :: rest =>
      if p r then k :: indicesWhereFrom p (k + 1) rest
      else indicesWhereFrom p (k + 1) rest

/-- `df.drop(toDrop)`: remove the rows whose position is listed, counting
from `k`. -/
def dropPositionsFrom (toDrop : List ℕ) : ℕ → List Record → List Record
  | _, [] => []
  | k, r :: rest =>
      if toDrop.contains k then dropPositionsFrom toDrop (k + 1) rest
      else r :: dropPositionsFrom toDrop (k + 1) rest

/-- `mark_as_retake`: collect the positions sharing the displayed file;
with more than one sibling only the active row is dropped and the original
file is kept, otherwise all sharing rows are dropped (the active row when
none share) and the original file is removed after the marked copy is saved
to the `a_refaire` folder; the file leaves the queue only when no row
references it any more. -/
def mark_as_retake (df : List Record) (queue : List String)
    (currentIdx : ℕ) (filename : String) : RetakeResult :=
  let sharing := indicesWhereFrom (fun r => r.fichier == filename) 0 df
  let isMulti := 1 < sharing.length
  let toDrop := if isMulti then [currentIdx]
                else if sharing.isEmpty then [currentIdx] else sharing
  let df2 := dropPositionsFrom toDrop 0 df
  let remaining := df2.filter (fun r => r.fichier == filename)
  let queue2 := if remaining.isEmpty && queue.contains filename
                then queue.erase filename else queue
  { df := df2, queue := queue2, originalKept := isMulti }

/-! ## review_gui.py — atomic save (save_data) -/

/-- A directory as an association list mapping paths to file contents. -/
abbrev FS := List (String × String)

def fsGet (fs : FS) (p : String) : Option String :=
  (fs.find? (fun e => e.1 == p)).map (·.2)

def fsSet : FS → String → String → FS
  | [], p, v => [(p, v)]
  | e :: rest, p, v => if e.1 == p then (p, v) :: rest else e :: fsSet rest p v

def fsRemove (fs : FS) (p : String) : FS := fs.filter (fun e => e.1 != p)

inductive SaveOutcome where
  | saved
  | errorSurfaced
deriving DecidableEq, Repr

/-- `save_data`: serialize the ledger to `csv_path + ".tmp"`, then
`os.replace` it onto the destination; on `OSError` fall back to
`os.remove` (when the destination exists) followed by `os.rename`; any
exception reaches the outer handler which surfaces the save-error dialog.
`serialized = none` models `to_csv` raising mid-write, leaving
`leftoverTmp` (possibly partial bytes) at the temp path; the three booleans
model success of `os.replace`, `os.remove`, `os.rename`. -/
def save_data (fs : FS) (csvPath : String) (serialized : Option String)
    (leftoverTmp : Option String) (replaceOk removeOk renameOk : Bool) :
    FS × SaveOutcome :=
  let tmpPath := csvPath ++ ".tmp"
  match serialized with
  | none =>
      (match leftoverTmp with
       | some s => fsSet fs tmpPath s
       | none => fs,
       .errorSurfaced)
  | some content =>
      let fs1 := fsSet fs tmpPath content
      if replaceOk then
        (fsSet (fsRemove fs1 tmpPath) csvPath content, .saved)
      else
        if (fsGet fs1 csvPath).isSome then
          if removeOk then
            let fs2 := fsRemove fs1 csvPath
            if renameOk then (fsSet (fsRemove fs2 tmpPath) csvPath content, .saved)
            else (fs2, .errorSurfaced)
          else (fs1, .errorSurfaced)
        else
          if renameOk then (fsSet (fsRemove fs1 tmpPath) csvPath content, .saved)
          else (fs1, .errorSurfaced)

/-! ## review_gui.py — bounding-box rotation (rotate_image) -/

/-- A normalized bounding box `[ymin, xmin, ymax, xmax]` in the 0–1000
coordinate space. -/
structure Box where
  ymin : ℤ
  xmin : ℤ
  ymax : ℤ
  xmax : ℤ
deriving DecidableEq, Repr

/-- The final min/max re-sorting guard of `rotate_image`. -/
def sortBox (b : Box) : Box :=
  { ymin := min b.ymin b.ymax, xmin := min b.xmin b.xmax,
    ymax := max b.ymin b.ymax, xmax := max b.xmin b.xmax }

/-- 90° counterclockwise box transform of `rotate_image` (`direction ==
"left"`): `new_ymin = 1000 - xmax; new_xmin = ymin; new_ymax = 1000 - xmin;
new_xmax = ymax`, then min/max re-sorting. -/
def rotateBoxLeft (b : Box) : Box :=
  sortBox { ymin := 1000 - b.xmax, xmin := b.ymin,
            ymax := 1000 - b.xmin, xmax := b.ymax }

/-- 90° clockwise box transform of `rotate_image` (`direction == "right"`):
`new_ymin = xmin; new_xmin = 1000 - ymax; new_ymax = xmax;
new_xmax = 1000 - ymin`, then min/max re-sorting. -/
def rotateBoxRight (b : Box) : Box :=
  sortBox { ymin := b.xmin, xmin := 1000 - b.ymax,
            ymax := b.xmax, xmax := 1000 - b.ymin }

/-! ## inventory_ai.py — error sentinels -/

/-- The sentinel dictionary returned by the `except` blocks of
`analyze_image` and `analyze_image_multiple`. -/
def errorResult : ObjectResult :=
  { nom := "Erreur", categorie := "Inconnu", categorieId := "unknown",
    quantite := 0, etat := "Inconnu", prixUnitaire := 0, prixNeuf := 0,
    fiabilite := 0, box2d := none }

/-- `analyze_image` as seen from its callers: the whole request/decode
pipeline is wrapped in `try`/`except`; `decoded = none` models any raised
exception (network error or `json.loads` failure on a malformed
response). -/
def analyze_image (decoded : Option ObjectResult) : ObjectResult :=
  decoded.getD errorResult

/-- `analyze_image_multiple`: same shape, the sentinel is wrapped in a
one-element list. -/
def analyze_image_multiple (decoded : Option (List ObjectResult)) : List ObjectResult :=
  decoded.getD [errorResult]

/-! ## Shared helper lemmas -/

theorem foldlMax_le (xs : List ℤ) : ∀ x : ℤ, x ≤ xs.foldl max x ∧ ∀ y ∈ xs, y ≤ xs.foldl max x := by
  induction xs with
  | nil => intro x; simp
  | cons z zs ih =>
    intro x
    have h := ih (max x z)
    refine ⟨le_trans (le_max_left x z) h.1, ?_⟩
    intro y hy
    rcases List.mem_cons.1 hy with rfl | hy2
    · exact le_trans (le_max_right x y) h.1
    · exact h.2 y hy2

theorem le_colMax {l : List ℤ} {m x : ℤ} (hm : colMax l = some m) (hx : x ∈ l) : x ≤ m := by
  cases l with
  | nil => simp [colMax] at hm
  | cons y ys =>
    simp only [colMax, Option.some.injEq] at hm
    subst hm
    rcases List.mem_cons.1 hx with rfl | hx2
    · exact (foldlMax_le ys x).1
    · exact (foldlMax_le ys y).2 x hx2

theorem colMax_append_singleton {l : List ℤ} {m : ℤ} (y : ℤ) (hm : colMax l = some m) :
    colMax (l ++ [y]) = some (max m y) := by
  cases l with
  | nil => simp [colMax] at hm
  | cons x xs =>
    simp only [colMax, Option.some.injEq] at hm
    subst hm
    simp [colMax, List.foldl_append]

theorem colMax_isSome_of_ne_nil {l : List ℤ} (h : l ≠ []) : ∃ m, colMax l = some m := by
  cases l with
  | nil => exact absurd rfl h
  | cons x xs => exact ⟨xs.foldl max x, rfl⟩

/-! ## C8 — bounding-box rotation round trip -/

/-- C8: for every bounding box [ymin, xmin, ymax, xmax] in the 0–1000
normalized space with ymin ≤ ymax and xmin ≤ xmax, applying the
left-rotation transform four times returns the original box exactly, and
one right rotation is the inverse of one left rotation (in both
composition orders). -/
theorem rotate_box_roundtrip (b : Box) (hy : b.ymin ≤ b.ymax) (hx : b.xmin ≤ b.xmax) :
    rotateBoxLeft (rotateBoxLeft (rotateBoxLeft (rotateBoxLeft b))) = b
    ∧ rotateBoxRight (rotateBoxLeft b) = b
    ∧ rotateBoxLeft (rotateBoxRight b) = b := by
  obtain ⟨y1, x1, y2, x2⟩ := b
  simp only [Box.mk.injEq] at *
  refine ⟨?_, ?_, ?_⟩ <;>
    simp only [rotateBoxLeft, rotateBoxRight, sortBox, Box.mk.injEq] <;>
    refine ⟨?_, ?_, ?_, ?_⟩ <;> omega

/-- C8 witness: the round trip and both inverses on the concrete box
[100, 200, 500, 600]. -/
theorem rotate_box_roundtrip_witness :
    rotateBoxLeft (rotateBoxLeft (rotateBoxLeft (rotateBoxLeft ⟨100, 200, 500, 600⟩)))
        = (⟨100, 200, 500, 600⟩ : Box)
    ∧ rotateBoxRight (rotateBoxLeft ⟨100, 200, 500, 600⟩) = (⟨100, 200, 500, 600⟩ : Box)
    ∧ rotateBoxLeft (rotateBoxRight ⟨100, 200, 500, 600⟩) = (⟨100, 200, 500, 600⟩ : Box) :=
  rotate_box_roundtrip ⟨100, 200, 500, 600⟩ (by decide) (by decide)

/-! ## C9 — analysis failure sentinel -/

/-- C9 counterexample: the sentinel name the code actually writes is the
French "Erreur", not "Error" as the claim states; shown on the concrete
failing invocation (`decoded = none`, i.e. a raised request exception or
malformed non-JSON data). -/
theorem analyze_image_error_name_cex :
    ¬((analyze_image none).nom = "Error")
    ∧ ¬((analyze_image_multiple none).map (fun r => r.nom) = ["Error"]) := by
  constructor <;> decide

/-- C9 amended: for every invocation of the external analysis call whose
request raises or returns malformed non-JSON data, the function returns
normally with the sentinel placeholder whose name field is "Erreur" and
whose confidence is 0 — a one-element list in multi mode — instead of
propagating the exception. -/
theorem analyze_image_error_sentinel :
    (analyze_image none).nom = "Erreur"
    ∧ (analyze_image none).fiabilite = 0
    ∧ analyze_image_multiple none = [errorResult]
    ∧ (analyze_image_multiple none).length = 1
    ∧ (∀ r ∈ analyze_image_multiple none, r.nom = "Erreur" ∧ r.fiabilite = 0)
    ∧ (∀ d, analyze_image (some d) = d)
    ∧ (∀ ds, analyze_image_multiple (some ds) = ds) := by
  refine ⟨rfl, rfl, rfl, rfl, ?_, fun d => rfl, fun ds => rfl⟩
  intro r hr
  simp only [analyze_image_multiple, Option.getD_none, List.mem_singleton] at hr
  subst hr
  exact ⟨rfl, rfl⟩

/-! ## C10 — price truncation asymmetry between merge paths -/

/-- C10: the batch merge path (`process_inventory`) writes prices through
`int(float(value))`, truncating the fractional part toward zero (so 0.05 is
stored as 0), while the interactive review merge path (`scan_multi_item`)
stores the price values as floats, unchanged.  The last conjunct
characterizes the truncation: on non-negative prices the stored integer is
the value with its decimal part discarded. -/
theorem batch_merge_price_truncation :
    (∀ r item fn img,
        (mergeFields r item fn img).prixUnitaire = .num ((truncQ item.prixUnitaire : ℤ) : ℚ)
        ∧ (mergeFields r item fn img).prixNeuf = .num ((truncQ item.prixNeuf : ℤ) : ℚ))
    ∧ truncQ (1/20 : ℚ) = 0
    ∧ (∀ t item nid,
        (scan_multi_new_row t item nid).prixUnitaire = .num item.prixUnitaire
        ∧ (scan_multi_new_row t item nid).prixNeuf = .num item.prixNeuf)
    ∧ (1/20 : ℚ) ≠ 0
    ∧ (∀ q : ℚ, 0 ≤ q → ((truncQ q : ℤ) : ℚ) ≤ q ∧ q < ((truncQ q : ℤ) : ℚ) + 1) := by
  refine ⟨fun r item fn img => ⟨rfl, rfl⟩, ?_, ?_, by norm_num, ?_⟩
  · have h : (1/20 : ℚ) = mkRat 1 20 := by norm_num [Rat.mkRat_eq_div]
    rw [truncQ, h]
    decide
  · intro t item nid
    constructor <;> rfl
  · intro q hq
    have hnum : 0 ≤ q.num := Rat.num_nonneg.2 hq
    have ht : truncQ q = q.num / (q.den : ℤ) := Int.tdiv_eq_ediv hnum (by positivity)
    rw [ht, ← Rat.floor_def]
    exact ⟨by exact_mod_cast Int.floor_le q, by exact_mod_cast Int.lt_floor_add_one q⟩

/-- C10 witness: the non-negativity hypothesis of the truncation bound,
discharged at the concrete fractional price 1/20 (= 0.05). -/
theorem batch_merge_price_truncation_witness :
    ((truncQ (1/20 : ℚ) : ℤ) : ℚ) ≤ (1/20 : ℚ)
    ∧ (1/20 : ℚ) < ((truncQ (1/20 : ℚ) : ℤ) : ℚ) + 1 :=
  batch_merge_price_truncation.2.2.2.2 (1/20 : ℚ) (by norm_num)

/-! ## C7 — atomic save -/

theorem fsGet_fsSet_self (fs : FS) (p v : String) : fsGet (fsSet fs p v) p = some v := by
  induction fs with
  | nil => simp [fsGet, fsSet]
  | cons e rest ih =>
    by_cases h : e.1 = p
    · simp [fsGet, fsSet, h]
    · have hb : (e.1 == p) = false := by simp [h]
      simp only [fsSet, hb, Bool.false_eq_true, if_false]
      simpa [fsGet, hb] using ih

theorem fsGet_fsSet_ne (fs : FS) (p q v : String) (hpq : p ≠ q) :
    fsGet (fsSet fs p v) q = fsGet fs q := by
  induction fs with
  | nil => simp [fsGet, fsSet, hpq]
  | cons e rest ih =>
    by_cases h : e.1 = p
    · have hb : (e.1 == p) = true := by simp [h]
      have hq : (e.1 == q) = false := by simp [h, hpq]
      have hpq2 : (p == q) = false := by simp [hpq]
      simp [fsGet, fsSet, hb, hq, hpq2]
    · have hb : (e.1 == p) = false := by simp [h]
      simp only [fsSet, hb, Bool.false_eq_true, if_false]
      by_cases h2 : e.1 = q
      · simp [fsGet, h2]
      · have hq : (e.1 == q) = false := by simp [h2]
        simpa [fsGet, hq] using ih

theorem ne_append_tmp (s : String) : s ≠ s ++ ".tmp" := by
  intro h
  have hlen := congrArg String.length h
  rw [String.length_append] at hlen
  have h4 : String.length ".tmp" = 4 := rfl
  omega

/-- C7: the save path writes the full ledger to `csv_path + ".tmp"` in the
same directory and then atomically replaces the destination via
`os.replace`, falling back to remove-then-rename, surfacing a hard error on
any failure of the fallback; and for every failure during the write of the
temporary file (`serialized = none`, whatever partial bytes it left at the
temp path) the original ledger file is left byte-identical to its pre-save
state. -/
theorem save_data_atomic (fs : FS) (csvPath : String) (leftoverTmp : Option String)
    (replaceOk removeOk renameOk : Bool) :
    (fsGet (save_data fs csvPath none leftoverTmp replaceOk removeOk renameOk).1 csvPath
        = fsGet fs csvPath
      ∧ (save_data fs csvPath none leftoverTmp replaceOk removeOk renameOk).2
        = .errorSurfaced)
    ∧ (∀ content, replaceOk = true →
        fsGet (save_data fs csvPath (some content) leftoverTmp replaceOk removeOk renameOk).1 csvPath
          = some content
        ∧ (save_data fs csvPath (some content) leftoverTmp replaceOk removeOk renameOk).2 = .saved)
    ∧ (∀ content, replaceOk = false → removeOk = true → renameOk = true →
        fsGet (save_data fs csvPath (some content) leftoverTmp replaceOk removeOk renameOk).1 csvPath
          = some content
        ∧ (save_data fs csvPath (some content) leftoverTmp replaceOk removeOk renameOk).2 = .saved)
    ∧ (∀ content, replaceOk = false → renameOk = false →
        (save_data fs csvPath (some content) leftoverTmp replaceOk removeOk renameOk).2
          = .errorSurfaced)
    ∧ (∀ content, replaceOk = false → removeOk = false → (fsGet fs csvPath).isSome = true →
        (save_data fs csvPath (some content) leftoverTmp replaceOk removeOk renameOk).2
          = .errorSurfaced) := by
  have hne : csvPath ++ ".tmp" ≠ csvPath := fun h => ne_append_tmp csvPath h.symm
  refine ⟨⟨?_, ?_⟩, ?_, ?_, ?_, ?_⟩
  · cases leftoverTmp with
    | none => rfl
    | some s => exact fsGet_fsSet_ne fs (csvPath ++ ".tmp") csvPath s hne
  · cases leftoverTmp <;> rfl
  · intro content hrep
    subst hrep
    exact ⟨fsGet_fsSet_self _ _ _, rfl⟩
  · intro content hrep hrem hren
    subst hrep; subst hrem; subst hren
    simp only [save_data, Bool.false_eq_true, if_false, if_true]
    by_cases hexists : (fsGet (fsSet fs (csvPath ++ ".tmp") content) csvPath).isSome = true
    · simp only [hexists, if_true]
      exact ⟨fsGet_fsSet_self _ _ _, trivial⟩
    · simp only [Bool.not_eq_true] at hexists
      simp only [hexists, Bool.false_eq_true, if_false, if_true]
      exact ⟨fsGet_fsSet_self _ _ _, trivial⟩
  · intro content hrep hren
    subst hrep; subst hren
    simp only [save_data, Bool.false_eq_true, if_false]
    by_cases hexists : (fsGet (fsSet fs (csvPath ++ ".tmp") content) csvPath).isSome = true
    · simp only [hexists, if_true]
      cases removeOk <;> simp
    · simp only [Bool.not_eq_true] at hexists
      simp [hexists]
  · intro content hrep hrem hsome
    subst hrep; subst hrem
    have hexists : (fsGet (fsSet fs (csvPath ++ ".tmp") content) csvPath).isSome = true := by
      rw [fsGet_fsSet_ne fs (csvPath ++ ".tmp") csvPath content hne]
      exact hsome
    simp [save_data, hexists]

/-- C7 witness: the fallback remove-then-rename path succeeds and publishes
the full new content, and an interrupted temp write leaves the destination
untouched, both on a concrete one-file directory. -/
theorem save_data_atomic_witness :
    (fsGet (save_data [("inv.csv", "old")] "inv.csv" (some "new") none false true true).1 "inv.csv"
       = some "new")
    ∧ fsGet (save_data [("inv.csv", "old")] "inv.csv" none (some "parti") true true true).1 "inv.csv"
       = fsGet [("inv.csv", "old")] "inv.csv" :=
  ⟨((save_data_atomic [("inv.csv", "old")] "inv.csv" none false true true).2.2.1 "new"
      rfl rfl rfl).1,
   (save_data_atomic [("inv.csv", "old")] "inv.csv" (some "parti") true true true).1.1⟩

/-! ## C4 — total price invariant -/

theorem recomputeTotal_spec (r : Record) (q p : ℚ)
    (hq : cellFloat? (recomputeTotal r).quantite = some q)
    (hp : cellFloat? (recomputeTotal r).prixUnitaire = some p) :
    (recomputeTotal r).prixTotal = .num (q * p) := by
  cases h1 : cellFloat? r.quantite with
  | none =>
      simp only [recomputeTotal, h1] at hq hp ⊢
      exact absurd hq (by simp)
  | some a =>
      cases h2 : cellFloat? r.prixUnitaire with
      | none =>
          simp only [recomputeTotal, h1, h2] at hq hp ⊢
          exact absurd hp (by simp)
      | some b =>
          simp only [recomputeTotal, h1, h2] at hq hp ⊢
          obtain rfl : a = q := by injection hq
          obtain rfl : b = p := by injection hp
          rfl

/-- C4: after every operation that mutates quantity or unit price — the
batch merge (`process_inventory` field mapping), interactive validation
(`validate_item`), field autosave (`save_field_to_df` on any editable
field), and the multi-scan sibling append (`scan_multi_item`) — the stored
total price equals quantity * unit price, where quantity and unit price are
the numeric values of the record's own post-operation cells; zero quantity
and zero price included. -/
theorem total_price_invariant (cmap : List (String × String)) :
    (∀ r f entry q p,
        f ≠ FieldName.fId → f ≠ FieldName.fFichier → f ≠ FieldName.fFiabilite →
        cellFloat? ((save_field_to_df cmap r f entry).quantite) = some q →
        cellFloat? ((save_field_to_df cmap r f entry).prixUnitaire) = some p →
        (save_field_to_df cmap r f entry).prixTotal = .num (q * p))
    ∧ (∀ r nomE catE etatE commE qE puE pnE q p,
        cellFloat? ((validate_item cmap r nomE catE etatE commE qE puE pnE).quantite) = some q →
        cellFloat? ((validate_item cmap r nomE catE etatE commE qE puE pnE).prixUnitaire) = some p →
        (validate_item cmap r nomE catE etatE commE qE puE pnE).prixTotal = .num (q * p))
    ∧ (∀ r item fn img q p,
        cellFloat? ((mergeFields r item fn img).quantite) = some q →
        cellFloat? ((mergeFields r item fn img).prixUnitaire) = some p →
        (mergeFields r item fn img).prixTotal = .num (q * p))
    ∧ (∀ t item nid q p,
        cellFloat? ((scan_multi_new_row t item nid).quantite) = some q →
        cellFloat? ((scan_multi_new_row t item nid).prixUnitaire) = some p →
        (scan_multi_new_row t item nid).prixTotal = .num (q * p)) := by
  refine ⟨?_, ?_, ?_, ?_⟩
  · intro r f entry q p h1 h2 h3 hq hp
    cases f with
    | fId => exact absurd rfl h1
    | fFichier => exact absurd rfl h2
    | fFiabilite => exact absurd rfl h3
    | fCommentaire => exact recomputeTotal_spec _ q p hq hp
    | fNom => exact recomputeTotal_spec _ q p hq hp
    | fCategorie => exact recomputeTotal_spec _ q p hq hp
    | fEtat => exact recomputeTotal_spec _ q p hq hp
    | fQuantite => exact recomputeTotal_spec _ q p hq hp
    | fPrixUnitaire => exact recomputeTotal_spec _ q p hq hp
    | fPrixNeuf => exact recomputeTotal_spec _ q p hq hp
  · intro r nomE catE etatE commE qE puE pnE q p hq hp
    exact recomputeTotal_spec _ q p hq hp
  · intro r item fn img q p hq hp
    simp only [mergeFields, cellFloat?] at hq hp
    obtain rfl : ((item.quantite : ℤ) : ℚ) = q := by injection hq
    obtain rfl : ((truncQ item.prixUnitaire : ℤ) : ℚ) = p := by injection hp
    simp only [mergeFields]
    congr 1
    push_cast
    ring
  · intro t item nid q p hq hp
    exact recomputeTotal_spec _ q p hq hp

/-- Concrete AI result with zero quantity and zero unit price, used by the
C4 witness. -/
def c4item : ObjectResult :=
  { nom := "Vis", categorie := "Outils", categorieId := "categ_outils",
    quantite := 0, etat := "Neuf", prixUnitaire := 0, prixNeuf := 3,
    fiabilite := 90, box2d := none }

/-- C4 witness: the batch-merge conjunct at a concrete record and result
with quantity 0 and unit price 0. -/
theorem total_price_invariant_witness :
    (mergeFields emptyRecord c4item "a.jpg" "").prixTotal
      = .num (((c4item.quantite : ℤ) : ℚ) * ((truncQ c4item.prixUnitaire : ℤ) : ℚ)) :=
  (total_price_invariant []).2.2.1 emptyRecord c4item "a.jpg" "" _ _ rfl rfl

/-! ## C5 — review queue contents -/

theorem mem_distinctFiles_aux (df : List Record) :
    ∀ acc f,
      (f ∈ df.foldl (fun acc r => if acc.contains r.fichier then acc else acc ++ [r.fichier]) acc
        ↔ f ∈ acc ∨ ∃ r ∈ df, r.fichier = f) := by
  induction df with
  | nil => intro acc f; simp
  | cons r rest ih =>
    intro acc f
    simp only [List.foldl_cons]
    by_cases h : acc.contains r.fichier
    · have hmem : r.fichier ∈ acc := by simpa using h
      rw [if_pos h, ih]
      constructor
      · rintro (hf | ⟨x, hx, hfx⟩)
        · exact Or.inl hf
        · exact Or.inr ⟨x, List.mem_cons_of_mem r hx, hfx⟩
      · rintro (hf | ⟨x, hx, hfx⟩)
        · exact Or.inl hf
        · rcases List.mem_cons.1 hx with rfl | hx2
          · exact Or.inl (hfx ▸ hmem)
          · exact Or.inr ⟨x, hx2, hfx⟩
    · rw [if_neg h, ih]
      simp only [List.mem_append, List.mem_cons, List.not_mem_nil, or_false]
      constructor
      · rintro ((hf | rfl) | ⟨x, hx, hfx⟩)
        · exact Or.inl hf
        · exact Or.inr ⟨r, Or.inl rfl, rfl⟩
        · exact Or.inr ⟨x, Or.inr hx, hfx⟩
      · rintro (hf | ⟨x, rfl | hx2, hfx⟩)
        · exact Or.inl (Or.inl hf)
        · exact Or.inl (Or.inr hfx.symm)
        · exact Or.inr ⟨x, hx2, hfx⟩

theorem mem_distinctFiles (df : List Record) (f : String) :
    f ∈ distinctFiles df ↔ ∃ r ∈ df, r.fichier = f := by
  have h := mem_distinctFiles_aux df [] f
  simpa [distinctFiles] using h

/-- Record with reliability 100, used by the C5 counterexample. -/
def c5rec : Record := { emptyRecord with fichier := "a.jpg", fiabilite := .num 100 }

/-- C5 counterexample: a ledger whose only record has confidence 100 still
produces a review queue containing that record's source file
(`load_data` keeps `review_candidates = self.df`, filtering nothing out),
contradicting the claimed exclusion. -/
theorem review_queue_cex :
    cellNum0 c5rec.fiabilite = 100 ∧ loadQueue [c5rec] = ["a.jpg"] := by
  constructor <;> decide

/-- C5 amended: the review queue built by `load_data` contains every
distinct source file of the ledger — including files all of whose records
have confidence 100, which are not excluded — ordered by ascending minimum
confidence per file. -/
theorem review_queue_contents (df : List Record) :
    (∀ f, f ∈ loadQueue df ↔ ∃ r ∈ df, r.fichier = f)
    ∧ List.Sorted (fun a b => minFiab df a ≤ minFiab df b) (loadQueue df) := by
  constructor
  · intro f
    have h1 : List.Perm (loadQueue df) (distinctFiles df) := by
      unfold loadQueue
      exact (List.perm_insertionSort _ _).trans (List.perm_insertionSort _ _)
    rw [h1.mem_iff]
    exact mem_distinctFiles df f
  · have htot : IsTotal String (fun a b => minFiab df a ≤ minFiab df b) :=
      ⟨fun a b => le_total _ _⟩
    have htrans : IsTrans String (fun a b => minFiab df a ≤ minFiab df b) :=
      ⟨fun a b c hab hbc => le_trans hab hbc⟩
    exact @List.sorted_insertionSort String _ _ htot htrans _

/-! ## C6 — retake workflow -/

theorem indicesWhereFrom_length (p : Record → Bool) :
    ∀ (df : List Record) (k : ℕ), (indicesWhereFrom p k df).length = df.countP p := by
  intro df
  induction df with
  | nil => intro k; simp [indicesWhereFrom]
  | cons r rest ih =>
    intro k
    by_cases hp : p r
    · simp [indicesWhereFrom, hp, List.countP_cons, ih]
    · simp [indicesWhereFrom, hp, List.countP_cons, ih]

theorem indicesWhereFrom_ge (p : Record → Bool) :
    ∀ (df : List Record) (k : ℕ), ∀ j ∈ indicesWhereFrom p k df, k ≤ j := by
  intro df
  induction df with
  | nil => intro k j hj; simp [indicesWhereFrom] at hj
  | cons r rest ih =>
    intro k j hj
    by_cases hp : p r
    · rw [indicesWhereFrom, if_pos hp] at hj
      rcases List.mem_cons.1 hj with rfl | hj2
      · exact le_refl j
      · exact le_trans (Nat.le_succ k) (ih (k + 1) j hj2)
    · rw [indicesWhereFrom, if_neg hp] at hj
      exact le_trans (Nat.le_succ k) (ih (k + 1) j hj)

theorem dropPositionsFrom_cons_lt (j : ℕ) (td : List ℕ) :
    ∀ (df : List Record) (k : ℕ), j < k →
      dropPositionsFrom (j :: td) k df = dropPositionsFrom td k df := by
  intro df
  induction df with
  | nil => intro k hk; rfl
  | cons r rest ih =>
    intro k hk
    have hne : (k == j) = false := by simp; omega
    rw [dropPositionsFrom, dropPositionsFrom, List.contains_cons, hne]
    simp only [Bool.false_or]
    by_cases hc : td.contains k
    · rw [if_pos hc, if_pos hc, ih (k + 1) (by omega)]
    · rw [if_neg hc, if_neg hc, ih (k + 1) (by omega)]

theorem dropPositionsFrom_all_lt (td : List ℕ) :
    ∀ (df : List Record) (k : ℕ), (∀ j ∈ td, j < k) →
      dropPositionsFrom td k df = df := by
  intro df
  induction df with
  | nil => intro k _; rfl
  | cons r rest ih =>
    intro k hk
    have hc : td.contains k = false := by
      simpa using fun hm => absurd (hk k hm) (lt_irrefl k)
    rw [dropPositionsFrom, hc]
    simp only [Bool.false_eq_true, if_false]
    rw [ih (k + 1) (fun j hj => lt_trans (hk j hj) (Nat.lt_succ_self k))]

theorem dropPositionsFrom_indicesWhere (p : Record → Bool) :
    ∀ (df : List Record) (k : ℕ),
      dropPositionsFrom (indicesWhereFrom p k df) k df
        = df.filter (fun r => !p r) := by
  intro df
  induction df with
  | nil => intro k; rfl
  | cons r rest ih =>
    intro k
    by_cases hp : p r
    · rw [indicesWhereFrom, if_pos hp]
      have hk : (k :: indicesWhereFrom p (k + 1) rest).contains k = true := by
        simp
      rw [dropPositionsFrom, hk]
      simp only [if_true]
      rw [dropPositionsFrom_cons_lt k _ rest (k + 1) (Nat.lt_succ_self k), ih (k + 1)]
      simp [hp]
    · rw [indicesWhereFrom, if_neg hp]
      have hnm : k ∉ indicesWhereFrom p (k + 1) rest := fun hm => by
        have := indicesWhereFrom_ge p rest (k + 1) k hm
        omega
      have hk : (indicesWhereFrom p (k + 1) rest).contains k = false := by
        simpa using hnm
      rw [dropPositionsFrom, hk]
      simp only [Bool.false_eq_true, if_false]
      rw [ih (k + 1)]
      simp [hp]

theorem dropPositionsFrom_singleton :
    ∀ (df : List Record) (k i : ℕ), dropPositionsFrom [k + i] k df = df.eraseIdx i := by
  intro df
  induction df with
  | nil => intro k i; simp [dropPositionsFrom]
  | cons r rest ih =>
    intro k i
    cases i with
    | zero =>
      have hk : ([k + 0] : List ℕ).contains k = true := by simp
      rw [dropPositionsFrom, hk]
      simp only [if_true]
      rw [dropPositionsFrom_all_lt [k + 0] rest (k + 1)
        (by intro j hj; have hjk : j = k + 0 := (by simpa using hj); omega)]
      simp [List.eraseIdx]
    | succ m =>
      have hk : ([k + (m + 1)] : List ℕ).contains k = false := by simp
      rw [dropPositionsFrom, hk]
      simp only [Bool.false_eq_true, if_false]
      have harith : k + (m + 1) = (k + 1) + m := by omega
      rw [harith, ih (k + 1) m]
      rfl

theorem countP_eraseIdx (p : Record → Bool) :
    ∀ (l : List Record) (i : ℕ) (r : Record), l[i]? = some r → p r = true →
      (l.eraseIdx i).countP p + 1 = l.countP p := by
  intro l
  induction l with
  | nil => intro i r h _; simp at h
  | cons x xs ih =>
    intro i r h hp
    cases i with
    | zero =>
      obtain rfl : x = r := by simpa using h
      simp [List.eraseIdx, List.countP_cons, hp]
    | succ m =>
      have h2 : xs[m]? = some r := by simpa using h
      have := ih m r h2 hp
      simp only [List.eraseIdx, List.countP_cons]
      omega

/-- Three sibling records for the same photo, used by the C6 counterexample
and witness. -/
def c6df : List Record :=
  [{ emptyRecord with id := 1, fichier := "a.jpg" },
   { emptyRecord with id := 2, fichier := "a.jpg" },
   { emptyRecord with id := 3, fichier := "a.jpg" }]

/-- C6 counterexample: on a file with 3 sibling records, Retake keeps 2 of
the 3 records, leaves the file in the review queue, and keeps the physical
image at its prior path — contradicting the claim that all records are
deleted, the file leaves the queue, and the image is quarantined away. -/
theorem mark_as_retake_cex :
    ((mark_as_retake c6df ["a.jpg"] 0 "a.jpg").df.filter
        (fun x => x.fichier == "a.jpg")).length = 2
    ∧ (mark_as_retake c6df ["a.jpg"] 0 "a.jpg").queue = ["a.jpg"]
    ∧ (mark_as_retake c6df ["a.jpg"] 0 "a.jpg").originalKept = true := by
  refine ⟨?_, ?_, ?_⟩ <;> decide

/-- C6 amended: Retake deletes all records sharing the displayed file and
removes the physical image only when the file has exactly one record; with
several sibling records it deletes only the active record, keeps the image
at its prior path, and leaves the file in the review queue. -/
theorem mark_as_retake_behaviour (df : List Record) (queue : List String)
    (i : ℕ) (fn : String) (r : Record)
    (hget : df[i]? = some r) (hfn : r.fichier = fn) (hq : queue.Nodup) :
    (((df.filter (fun x => x.fichier == fn)).length = 1) →
        ((mark_as_retake df queue i fn).df.filter (fun x => x.fichier == fn)).length = 0
        ∧ fn ∉ (mark_as_retake df queue i fn).queue
        ∧ (mark_as_retake df queue i fn).originalKept = false)
    ∧ ((1 < (df.filter (fun x => x.fichier == fn)).length) →
        ((mark_as_retake df queue i fn).df.filter (fun x => x.fichier == fn)).length
            = (df.filter (fun x => x.fichier == fn)).length - 1
        ∧ (mark_as_retake df queue i fn).queue = queue
        ∧ (mark_as_retake df queue i fn).originalKept = true) := by
  have hlen : (indicesWhereFrom (fun x => x.fichier == fn) 0 df).length
      = (df.filter (fun x => x.fichier == fn)).length :=
    (indicesWhereFrom_length _ df 0).trans (List.countP_eq_length_filter _ _)
  constructor
  · intro hc1
    have hsl : (indicesWhereFrom (fun x => x.fichier == fn) 0 df).length = 1 := by
      rw [hlen, hc1]
    have hnm : ¬ (1 < (indicesWhereFrom (fun x => x.fichier == fn) 0 df).length) := by
      omega
    have hni : ¬ ((indicesWhereFrom (fun x => x.fichier == fn) 0 df).isEmpty = true) := by
      cases hiw : indicesWhereFrom (fun x => x.fichier == fn) 0 df with
      | nil => rw [hiw] at hsl; simp at hsl
      | cons a as => simp
    simp only [mark_as_retake, if_neg hnm, if_neg hni,
      dropPositionsFrom_indicesWhere]
    have hrem : (df.filter (fun x => !(x.fichier == fn))).filter
        (fun x => x.fichier == fn) = [] := by
      rw [List.filter_filter]
      simp
    refine ⟨?_, ?_, ?_⟩
    · rw [hrem]; rfl
    · rw [hrem]
      by_cases hqc : queue.contains fn
      · simp only [List.isEmpty_nil, hqc, Bool.and_self, if_true]
        exact hq.not_mem_erase
      · simp only [List.isEmpty_nil, hqc, Bool.and_false, Bool.true_and,
          Bool.false_eq_true, if_false]
        simpa using hqc
    · simp [hsl]
  · intro hc2
    have hsl2 : 1 < (indicesWhereFrom (fun x => x.fichier == fn) 0 df).length := by
      rw [hlen]; exact hc2
    have hsing : dropPositionsFrom [i] 0 df = df.eraseIdx i := by
      simpa using dropPositionsFrom_singleton df 0 i
    have hp : (fun x => x.fichier == fn) r = true := by simp [hfn]
    have hcount := countP_eraseIdx (fun x => x.fichier == fn) df i r hget hp
    have hcf : ((df.eraseIdx i).filter (fun x => x.fichier == fn)).length
        = (df.filter (fun x => x.fichier == fn)).length - 1 := by
      rw [← List.countP_eq_length_filter, ← List.countP_eq_length_filter]
      omega
    have hremne : ¬ (((df.eraseIdx i).filter (fun x => x.fichier == fn)).isEmpty = true) := by
      cases hfe : (df.eraseIdx i).filter (fun x => x.fichier == fn) with
      | nil =>
          rw [hfe] at hcf
          simp at hcf
          omega
      | cons a as => simp
    simp only [mark_as_retake, if_pos hsl2, hsing]
    refine ⟨hcf, ?_, ?_⟩
    · have hcond : ¬ ((((df.eraseIdx i).filter (fun x => x.fichier == fn)).isEmpty
          && queue.contains fn) = true) := by
        cases hfe : ((df.eraseIdx i).filter (fun x => x.fichier == fn)).isEmpty with
        | false => simp
        | true => exact absurd hfe hremne
      rw [if_neg hcond]
    · simp [hsl2]

/-- C6 witness: the multi-sibling branch of the amended Retake behaviour on
the concrete three-sibling ledger. -/
theorem mark_as_retake_witness :
    ((mark_as_retake c6df ["a.jpg"] 0 "a.jpg").df.filter
        (fun x => x.fichier == "a.jpg")).length
      = (c6df.filter (fun x => x.fichier == "a.jpg")).length - 1
    ∧ (mark_as_retake c6df ["a.jpg"] 0 "a.jpg").queue = ["a.jpg"]
    ∧ (mark_as_retake c6df ["a.jpg"] 0 "a.jpg").originalKept = true :=
  (mark_as_retake_behaviour c6df ["a.jpg"] 0 "a.jpg"
      { emptyRecord with id := 1, fichier := "a.jpg" }
      rfl rfl (by decide)).2 (by decide)

/-! ## C2 — incremental discovery (Reconcile) -/

theorem mkPlaceholders_length (fs : List String) :
    ∀ nid, (mkPlaceholders nid fs).length = fs.length := by
  induction fs with
  | nil => intro nid; rfl
  | cons f gs ih => intro nid; simp [mkPlaceholders, ih]

theorem mkPlaceholders_getElem? (fs : List String) :
    ∀ (nid : ℤ) (j : ℕ),
      (mkPlaceholders nid fs)[j]? = (fs[j]?).map (fun f => mkPlaceholder (nid + j) f) := by
  induction fs with
  | nil => intro nid j; simp [mkPlaceholders]
  | cons f gs ih =>
    intro nid j
    cases j with
    | zero => simp [mkPlaceholders]
    | succ k =>
      simp only [mkPlaceholders, List.getElem?_cons_succ]
      rw [ih (nid + 1) k]
      have : nid + 1 + (k : ℤ) = nid + ((k : ℕ) + 1 : ℕ) := by push_cast; ring
      rw [this]

theorem mem_mkPlaceholders (fs : List String) :
    ∀ nid r, r ∈ mkPlaceholders nid fs → ∃ n f, r = mkPlaceholder n f := by
  induction fs with
  | nil => intro nid r h; simp [mkPlaceholders] at h
  | cons f gs ih =>
    intro nid r h
    rcases List.mem_cons.1 h with rfl | h2
    · exact ⟨nid, f, rfl⟩
    · exact ih (nid + 1) r h2

theorem mkPlaceholders_filter_length (fs : List String) (f : String) :
    ∀ nid, ((mkPlaceholders nid fs).filter (fun r => r.fichier == f)).length
      = (fs.filter (fun s => s == f)).length := by
  induction fs with
  | nil => intro nid; rfl
  | cons g gs ih =>
    intro nid
    by_cases hg : (g == f) = true
    · simp only [mkPlaceholders, List.filter_cons]
      have hgf : ((mkPlaceholder nid g).fichier == f) = true := hg
      rw [hgf, hg]
      simp [ih]
    · have hgb : (g == f) = false := by
        cases hgg : (g == f) with
        | true => exact absurd hgg hg
        | false => rfl
      simp only [mkPlaceholders, List.filter_cons]
      have hgf : ((mkPlaceholder nid g).fichier == f) = false := hgb
      rw [hgf, hgb]
      simp [ih]

theorem filter_beq_length_nodup (l : List String) (f : String) (hl : l.Nodup) :
    (l.filter (fun s => s == f)).length = if f ∈ l then 1 else 0 := by
  induction l with
  | nil => simp
  | cons a as ih =>
    have hna : a ∉ as := (List.nodup_cons.1 hl).1
    have has : as.Nodup := (List.nodup_cons.1 hl).2
    by_cases haf : a = f
    · subst haf
      have hzero : (as.filter (fun s => s == a)).length = 0 := by
        rw [ih has]
        simp [hna]
      simp [List.filter_cons, hzero]
    · have hb : (a == f) = false := by simp [haf]
      simp only [List.filter_cons, hb, Bool.false_eq_true, if_false]
      rw [ih has]
      have hfa : ¬ f = a := fun h => haf h.symm
      simp [List.mem_cons, hfa]

/-- C2: `Reconcile` (Phase 1 of `process_inventory`) leaves every
pre-existing record untouched, adds exactly one placeholder per file not
already named in the ledger's Fichier column (and none for files already
present), and each appended row at offset `j` is the placeholder for the
`j`-th new file with the fresh id `max(existing ids) + 1 + j` — quantity 0,
confidence 0, every other field empty, as `mkPlaceholder` spells out.
Persistence of the appended ledger is immediate (`to_csv` straight after
the `concat`) and is modelled by the returned value. -/
theorem reconcile_placeholders (df : List Record) (images : List String)
    (hnd : images.Nodup) (m : ℤ) (hm : colMax (df.map (fun r => r.id)) = some m) :
    (∀ j, j < df.length → (addPlaceholders df images)[j]? = df[j]?)
    ∧ (∀ f, ((addPlaceholders df images).filter (fun r => r.fichier == f)).length
          = (df.filter (fun r => r.fichier == f)).length
            + (if f ∈ images ∧ ¬ f ∈ df.map (fun r => r.fichier) then 1 else 0))
    ∧ (∀ j, (addPlaceholders df images)[df.length + j]?
          = ((newFiles df images)[j]?).map (fun f => mkPlaceholder (m + 1 + j) f))
    ∧ (∀ r ∈ mkPlaceholders (nextIdInit df) (newFiles df images),
        r.nom = "" ∧ r.quantite = .num 0 ∧ r.fiabilite = .num 0
        ∧ r.prixUnitaire = .str "" ∧ r.prixNeuf = .str "" ∧ r.prixTotal = .str ""
        ∧ r.categorie = "" ∧ r.categorieId = "" ∧ r.etat = ""
        ∧ r.commentaire = "" ∧ r.image = "")
    ∧ (addPlaceholders df images).length = df.length + (newFiles df images).length := by
  have hnid : nextIdInit df = m + 1 := by rw [nextIdInit, hm]
  have hnodup : (newFiles df images).Nodup := hnd.filter _
  refine ⟨?_, ?_, ?_, ?_, ?_⟩
  · intro j hj
    exact List.getElem?_append_left hj
  · intro f
    rw [addPlaceholders, List.filter_append, List.length_append,
      mkPlaceholders_filter_length, filter_beq_length_nodup _ _ hnodup]
    congr 1
    have hmem : f ∈ newFiles df images ↔ f ∈ images ∧ ¬ f ∈ df.map (fun r => r.fichier) := by
      rw [newFiles, List.mem_filter]
      simp
    by_cases hf : f ∈ newFiles df images
    · rw [if_pos hf, if_pos (hmem.1 hf)]
    · rw [if_neg hf, if_neg (fun hc => hf (hmem.2 hc))]
  · intro j
    rw [addPlaceholders]
    rw [List.getElem?_append_right (by omega)]
    have harith : df.length + j - df.length = j := by omega
    rw [harith, mkPlaceholders_getElem?, hnid]
  · intro r hr
    obtain ⟨n, f, rfl⟩ := mem_mkPlaceholders _ _ r hr
    exact ⟨rfl, rfl, rfl, rfl, rfl, rfl, rfl, rfl, rfl, rfl, rfl⟩
  · rw [addPlaceholders, List.length_append, mkPlaceholders_length]

/-- Ledger and file set for the C2 witness: files {A, B} in the ledger,
file set {A, B, C}. -/
def c2df : List Record :=
  [{ emptyRecord with id := 1, fichier := "A.jpg" },
   { emptyRecord with id := 2, fichier := "B.jpg" }]

/-- C2 witness: reconciling {A, B} against {A, B, C} appends exactly one
placeholder, for C, with id max+1 = 3, leaving A and B untouched. -/
theorem reconcile_placeholders_witness :
    (addPlaceholders c2df ["A.jpg", "B.jpg", "C.jpg"])[c2df.length + 0]?
      = ((newFiles c2df ["A.jpg", "B.jpg", "C.jpg"])[0]?).map
          (fun f => mkPlaceholder ((2 : ℤ) + 1 + (0 : ℕ)) f) :=
  (reconcile_placeholders c2df ["A.jpg", "B.jpg", "C.jpg"] (by decide) 2 rfl).2.2.1 0

/-! ## C3 — split merge machinery -/

theorem mergeFold_spec (i : ℕ) (fn img : String) (r1 : Record) :
    ∀ (rest : List ObjectResult) (acc : List Record) (m : ℤ),
      acc[i]? = some r1 →
      colMax (acc.map (fun r => r.id)) = some m →
      ((rest.foldl (mergeAppendStep i fn img) acc).length = acc.length + rest.length)
      ∧ (∀ j, j < acc.length →
          (rest.foldl (mergeAppendStep i fn img) acc)[j]? = acc[j]?)
      ∧ (∀ k item, rest[k]? = some item →
          (rest.foldl (mergeAppendStep i fn img) acc)[acc.length + k]?
            = some { mergeFields r1 item fn img with id := m + 1 + (k : ℤ) })
      ∧ colMax ((rest.foldl (mergeAppendStep i fn img) acc).map (fun r => r.id))
          = some (m + rest.length) := by
  intro rest
  induction rest with
  | nil =>
    intro acc m h1 hm
    refine ⟨by simp, fun j _ => rfl, fun k item hk => by simp at hk, by simpa using hm⟩
  | cons item rest' ih =>
    intro acc m h1 hm
    have hi : i < acc.length := (List.getElem?_eq_some.1 h1).1
    have hgetd : (acc[i]?).getD emptyRecord = r1 := by rw [h1]; rfl
    have hfresh : freshId acc = m + 1 := by rw [freshId, hm]
    have hstep : mergeAppendStep i fn img acc item
        = acc ++ [{ mergeFields r1 item fn img with id := m + 1 }] := by
      rw [mergeAppendStep, hgetd, hfresh]
    have hacc' : (acc ++ [{ mergeFields r1 item fn img with id := m + 1 }])[i]? = some r1 := by
      rw [List.getElem?_append_left hi]; exact h1
    have hm' : colMax ((acc ++ [({ mergeFields r1 item fn img with id := m + 1 } : Record)]).map
        (fun r => r.id)) = some (m + 1) := by
      rw [List.map_append]
      have := colMax_append_singleton
        (({ mergeFields r1 item fn img with id := m + 1 } : Record).id) hm
      simpa [max_eq_right (by omega : m ≤ m + 1)] using this
    obtain ⟨ihlen, ihpres, ihapp, ihmax⟩ := ih
      (acc ++ [{ mergeFields r1 item fn img with id := m + 1 }]) (m + 1) hacc' hm'
    have hfold : (item :: rest').foldl (mergeAppendStep i fn img) acc
        = rest'.foldl (mergeAppendStep i fn img)
            (acc ++ [{ mergeFields r1 item fn img with id := m + 1 }]) := by
      rw [List.foldl_cons, hstep]
    refine ⟨?_, ?_, ?_, ?_⟩
    · rw [hfold, ihlen]
      simp
      omega
    · intro j hj
      rw [hfold, ihpres j (by simp; omega), List.getElem?_append_left hj]
    · intro k it hk
      cases k with
      | zero =>
        obtain rfl : item = it := by simpa using hk
        rw [hfold]
        have hpos : acc.length + 0
            < (acc ++ [({ mergeFields r1 item fn img with id := m + 1 } : Record)]).length := by
          simp
        rw [ihpres (acc.length + 0) hpos]
        simp only [Nat.add_zero]
        rw [List.getElem?_concat_length]
        norm_num
      | succ k' =>
        have hk' : rest'[k']? = some it := by simpa using hk
        rw [hfold]
        have := ihapp k' it hk'
        have harith : (acc ++ [{ mergeFields r1 item fn img with id := m + 1 }]).length + k'
            = acc.length + (k' + 1) := by simp; omega
        rw [harith] at this
        rw [this]
        have : m + 1 + 1 + (k' : ℤ) = m + 1 + ((k' : ℕ) + 1 : ℕ) := by push_cast; ring
        rw [this]
    · rw [hfold, ihmax]
      have : m + 1 + (rest'.length : ℤ) = m + ((rest'.length + 1 : ℕ) : ℤ) := by
        push_cast; ring
      rw [this]
      simp

theorem countP_of_unique (p : Record → Bool) :
    ∀ (l : List Record) (i : ℕ) (r : Record), l[i]? = some r → p r = true →
      (∀ j s, j ≠ i → l[j]? = some s → p s = false) → l.countP p = 1 := by
  intro l
  induction l with
  | nil => intro i r h _ _; simp at h
  | cons x xs ih =>
    intro i r h hp hothers
    cases i with
    | zero =>
      obtain rfl : x = r := by simpa using h
      have hzero : xs.countP p = 0 := by
        rw [List.countP_eq_zero]
        intro a ha
        obtain ⟨k, hk⟩ := List.mem_iff_getElem?.1 ha
        have : p a = false := hothers (k + 1) a (by omega) (by simpa using hk)
        simp [this]
      simp [List.countP_cons, hp, hzero]
    | succ n =>
      have hx : p x = false := hothers 0 x (by omega) (by simp)
      have h2 : xs[n]? = some r := by simpa using h
      have := ih n r h2 hp (fun j s hj hs =>
        hothers (j + 1) s (by omega) (by simpa using hs))
      simp [List.countP_cons, hx, this]

/-- C3: merging a list of `n ≥ 1` AI results into row `i` updates that row
in place with the first result's fields, appends one new row per further
result — each a copy of the updated first row overwritten with its own
fields and given the fresh id `max(existing ids) + 1` recomputed per
appended row (`m + 1 + k` for the `k`-th appended row, where `m` is the id
maximum after the in-place update) — leaves every other row untouched, and
ends with all `n` merged rows sharing `source_file = fn` under `n` pairwise
distinct ids; when no other row referenced `fn`, exactly `n` rows of the
ledger reference it afterwards. -/
theorem merge_results_split (df : List Record) (i : ℕ) (first : ObjectResult)
    (rest : List ObjectResult) (fn img : String) (r0 : Record)
    (h0 : df[i]? = some r0) :
    ∃ m : ℤ,
      colMax ((df.set i (mergeFields r0 first fn img)).map (fun r => r.id)) = some m
      ∧ (mergeAll df i (first :: rest) fn img)[i]? = some (mergeFields r0 first fn img)
      ∧ (∀ j, j ≠ i → j < df.length →
          (mergeAll df i (first :: rest) fn img)[j]? = df[j]?)
      ∧ (mergeAll df i (first :: rest) fn img).length = df.length + rest.length
      ∧ (∀ k item, rest[k]? = some item →
          (mergeAll df i (first :: rest) fn img)[df.length + k]?
            = some { mergeFields (mergeFields r0 first fn img) item fn img with
                     id := m + 1 + (k : ℤ) })
      ∧ (∀ j s, (mergeAll df i (first :: rest) fn img)[j]? = some s →
          (j = i ∨ df.length ≤ j) → s.fichier = fn)
      ∧ ((mergeFields r0 first fn img).id
            :: ((mergeAll df i (first :: rest) fn img).drop df.length).map
                (fun r => r.id)).Nodup
      ∧ ((∀ j s, j ≠ i → df[j]? = some s → s.fichier ≠ fn) →
          ((mergeAll df i (first :: rest) fn img).filter
              (fun s => s.fichier == fn)).length = rest.length + 1) := by
  have hi : i < df.length := (List.getElem?_eq_some.1 h0).1
  have hgd : (df[i]?).getD emptyRecord = r0 := by rw [h0]; rfl
  have hbase : mergeAll df i (first :: rest) fn img
      = rest.foldl (mergeAppendStep i fn img)
          (df.set i (mergeFields r0 first fn img)) := by
    simp only [mergeAll, hgd]
  have hne : (df.set i (mergeFields r0 first fn img)).map (fun r => r.id) ≠ [] := by
    simp only [ne_eq, List.map_eq_nil_iff]
    intro hnil
    have hlen0 := congrArg List.length hnil
    rw [List.length_set] at hlen0
    simp only [List.length_nil] at hlen0
    omega
  obtain ⟨m, hm⟩ := colMax_isSome_of_ne_nil hne
  have hseteq : (df.set i (mergeFields r0 first fn img))[i]?
      = some (mergeFields r0 first fn img) :=
    List.getElem?_set_eq_of_lt _ hi
  obtain ⟨hlen, hpres, happ, hmax⟩ :=
    mergeFold_spec i fn img (mergeFields r0 first fn img) rest
      (df.set i (mergeFields r0 first fn img)) m hseteq hm
  have hsetlen : (df.set i (mergeFields r0 first fn img)).length = df.length :=
    List.length_set df i _
  have hA : (mergeAll df i (first :: rest) fn img)[i]?
      = some (mergeFields r0 first fn img) := by
    rw [hbase, hpres i (by omega), hseteq]
  have hC : (mergeAll df i (first :: rest) fn img).length = df.length + rest.length := by
    rw [hbase, hlen, hsetlen]
  have hD : ∀ k item, rest[k]? = some item →
      (mergeAll df i (first :: rest) fn img)[df.length + k]?
        = some { mergeFields (mergeFields r0 first fn img) item fn img with
                 id := m + 1 + (k : ℤ) } := by
    intro k item hk
    rw [hbase, ← hsetlen]
    exact happ k item hk
  have hB : ∀ j, j ≠ i → j < df.length →
      (mergeAll df i (first :: rest) fn img)[j]? = df[j]? := by
    intro j hji hj
    rw [hbase, hpres j (by omega), List.getElem?_set_ne (Ne.symm hji)]
  have hrestSome : ∀ k, k < rest.length → ∃ it, rest[k]? = some it := by
    intro k hk
    cases hrk : rest[k]? with
    | none =>
        have hcontr := List.getElem?_eq_some.2 ⟨hk, rfl⟩
        rw [hrk] at hcontr
        simp at hcontr
    | some it => exact ⟨it, rfl⟩
  have hE : ∀ j s, (mergeAll df i (first :: rest) fn img)[j]? = some s →
      (j = i ∨ df.length ≤ j) → s.fichier = fn := by
    intro j s hs hcase
    rcases hcase with rfl | hge
    · rw [hA] at hs
      obtain rfl : mergeFields r0 first fn img = s := by injection hs
      rfl
    · have hjlt : j < df.length + rest.length := by
        have := (List.getElem?_eq_some.1 hs).1
        rw [hC] at this
        exact this
      obtain ⟨item, hitem⟩ := hrestSome (j - df.length) (by omega)
      have hDj := hD (j - df.length) item hitem
      rw [(by omega : df.length + (j - df.length) = j)] at hDj
      rw [hDj] at hs
      obtain rfl : _ = s := by injection hs
      rfl
  have hdropLen : ((mergeAll df i (first :: rest) fn img).drop df.length).length
      = rest.length := by
    rw [List.length_drop, hC]
    omega
  have hmapids : ((mergeAll df i (first :: rest) fn img).drop df.length).map
        (fun r => r.id)
      = List.map (fun k : ℕ => m + 1 + (k : ℤ)) (List.range rest.length) := by
    apply List.ext_getElem?
    intro k
    rw [List.getElem?_map, List.getElem?_map]
    by_cases hk : k < rest.length
    · obtain ⟨item, hitem⟩ := hrestSome k hk
      rw [List.getElem?_drop, hD k item hitem, List.getElem?_range hk]
      rfl
    · have h1 : ((mergeAll df i (first :: rest) fn img).drop df.length)[k]? = none :=
        List.getElem?_eq_none (by omega)
      have h2 : (List.range rest.length)[k]? = none :=
        List.getElem?_eq_none (by simp only [List.length_range]; omega)
      rw [h1, h2]
      rfl
  have hr1mem : mergeFields r0 first fn img ∈ df.set i (mergeFields r0 first fn img) :=
    List.mem_iff_getElem?.2 ⟨i, hseteq⟩
  have hr1le : (mergeFields r0 first fn img).id ≤ m :=
    le_colMax hm (List.mem_map.2 ⟨_, hr1mem, rfl⟩)
  have hF : ((mergeFields r0 first fn img).id
      :: ((mergeAll df i (first :: rest) fn img).drop df.length).map
          (fun r => r.id)).Nodup := by
    rw [hmapids, List.nodup_cons]
    constructor
    · intro hmem
      obtain ⟨k, hkmem, hkeq⟩ := List.mem_map.1 hmem
      omega
    · refine List.Nodup.map ?_ (List.nodup_range rest.length)
      intro a b hab
      simp only at hab
      omega
  refine ⟨m, hm, hA, hB, hC, hD, hE, hF, ?_⟩
  intro hothers
  have htake : (mergeAll df i (first :: rest) fn img).take df.length
      = df.set i (mergeFields r0 first fn img) := by
    apply List.ext_getElem?
    intro j
    rw [List.getElem?_take]
    by_cases hj : j < df.length
    · rw [if_pos hj]
      by_cases hji : j = i
      · subst hji
        rw [hA, hseteq]
      · rw [hB j hji hj, List.getElem?_set_ne (Ne.symm hji)]
    · rw [if_neg hj]
      exact (List.getElem?_eq_none (by omega)).symm
  have hdropAll : ∀ a ∈ (mergeAll df i (first :: rest) fn img).drop df.length,
      (a.fichier == fn) = true := by
    intro a ha
    obtain ⟨k, hk⟩ := List.mem_iff_getElem?.1 ha
    rw [List.getElem?_drop] at hk
    have haf : a.fichier = fn := hE (df.length + k) a hk (Or.inr (by omega))
    simp [haf]
  have hcntDrop : ((mergeAll df i (first :: rest) fn img).drop df.length).countP
      (fun s => s.fichier == fn) = rest.length := by
    rw [List.countP_eq_length.2 hdropAll, hdropLen]
  have hcntSet : (df.set i (mergeFields r0 first fn img)).countP
      (fun s => s.fichier == fn) = 1 := by
    refine countP_of_unique _ _ i (mergeFields r0 first fn img) hseteq (by simp [mergeFields]) ?_
    intro j s hj hs
    rw [List.getElem?_set_ne (Ne.symm hj)] at hs
    have hsf := hothers j s hj hs
    simpa using hsf
  have hsplit : (mergeAll df i (first :: rest) fn img).countP (fun s => s.fichier == fn)
      = (df.set i (mergeFields r0 first fn img)).countP (fun s => s.fichier == fn)
        + ((mergeAll df i (first :: rest) fn img).drop df.length).countP
            (fun s => s.fichier == fn) := by
    conv_lhs =>
      rw [← List.take_append_drop df.length (mergeAll df i (first :: rest) fn img)]
    rw [List.countP_append, htake]
  rw [← List.countP_eq_length_filter, hsplit, hcntSet, hcntDrop]
  omega

/-- Unanalyzed record for "img1.jpg" used by the C3 witness. -/
def c3r0 : Record := { emptyRecord with id := 1, fichier := "img1.jpg" }

/-- First of three AI results for the C3 witness. -/
def c3res1 : ObjectResult :=
  { nom := "Marteau", categorie := "Outils", categorieId := "categ_outils",
    quantite := 3, etat := "Occasion", prixUnitaire := 5, prixNeuf := 15,
    fiabilite := 90, box2d := none }

/-- Second AI result for the C3 witness. -/
def c3res2 : ObjectResult :=
  { nom := "Tournevis", categorie := "Outils", categorieId := "categ_outils",
    quantite := 2, etat := "Occasion", prixUnitaire := 2, prixNeuf := 5,
    fiabilite := 85, box2d := none }

/-- Third AI result for the C3 witness. -/
def c3res3 : ObjectResult :=
  { nom := "Pince", categorie := "Outils", categorieId := "categ_outils",
    quantite := 1, etat := "Occasion", prixUnitaire := 4, prixNeuf := 9,
    fiabilite := 80, box2d := none }

/-- C3 witness: merging a 3-result list into the single unanalyzed record
for "img1.jpg" yields exactly 3 live records, all referencing
"img1.jpg". -/
theorem merge_results_split_witness :
    (mergeAll [c3r0] 0 [c3res1, c3res2, c3res3] "img1.jpg" "").length = 3
    ∧ ((mergeAll [c3r0] 0 [c3res1, c3res2, c3res3] "img1.jpg" "").filter
        (fun s => s.fichier == "img1.jpg")).length = 3 := by
  obtain ⟨m, hm, hA, hB, hC, hD, hE, hF, hG⟩ :=
    merge_results_split [c3r0] 0 c3res1 [c3res2, c3res3] "img1.jpg" "" c3r0 rfl
  constructor
  · simpa using hC
  · have hno : ∀ j s, j ≠ 0 → ([c3r0] : List Record)[j]? = some s →
        s.fichier ≠ "img1.jpg" := by
      intro j s hj hs
      cases j with
      | zero => exact absurd rfl hj
      | succ n => simp at hs
    simpa using hG hno

/-! ## C1 — idempotent re-scan machinery -/

theorem mergeFold_preserve (i : ℕ) (fn img : String) :
    ∀ (rest : List ObjectResult) (acc : List Record) (j : ℕ) (r : Record),
      acc[j]? = some r →
      (rest.foldl (mergeAppendStep i fn img) acc)[j]? = some r := by
  intro rest
  induction rest with
  | nil => intro acc j r h; exact h
  | cons item rest' ih =>
    intro acc j r h
    rw [List.foldl_cons]
    apply ih
    rw [mergeAppendStep, List.getElem?_append_left (List.getElem?_eq_some.1 h).1]
    exact h

theorem mergeAll_preserve (df : List Record) (i : ℕ) (res : List ObjectResult)
    (fn img : String) (j : ℕ) (r : Record) (hij : i ≠ j) (h : df[j]? = some r) :
    (mergeAll df i res fn img)[j]? = some r := by
  cases res with
  | nil => exact h
  | cons first rest =>
    simp only [mergeAll]
    apply mergeFold_preserve
    rw [List.getElem?_set_ne hij]
    exact h

theorem phase2_fold_nop (disk : List String) (analyze : String → List ObjectResult) :
    ∀ (l : List (ℕ × Record)) (st : List Record × ℕ),
      (∀ p ∈ l, selectedForAnalysis disk p.2 = false) →
      l.foldl (phase2Step disk analyze) st = st := by
  intro l
  induction l with
  | nil => intro st _; rfl
  | cons p l' ih =>
    intro st h
    rw [List.foldl_cons]
    have hp : selectedForAnalysis disk p.2 = false := h p (List.mem_cons_self p l')
    have hstep : phase2Step disk analyze st p = st := by
      rw [phase2Step, hp]
      simp
    rw [hstep]
    exact ih st (fun q hq => h q (List.mem_cons_of_mem p hq))

theorem phase2_fold_count (disk : List String) (analyze : String → List ObjectResult) :
    ∀ (l : List (ℕ × Record)) (st : List Record × ℕ),
      (l.foldl (phase2Step disk analyze) st).2
        = st.2 + l.countP (fun p => selectedForAnalysis disk p.2) := by
  intro l
  induction l with
  | nil => intro st; simp
  | cons p l' ih =>
    intro st
    rw [List.foldl_cons, ih, List.countP_cons]
    cases hp : selectedForAnalysis disk p.2 with
    | false =>
      have hstep : phase2Step disk analyze st p = st := by
        rw [phase2Step, hp]; simp
      rw [hstep]
      simp
    | true =>
      have hstep : (phase2Step disk analyze st p).2 = st.2 + 1 := by
        rw [phase2Step, hp]; simp
      rw [hstep]
      simp
      omega

theorem phase2_fold_preserve (disk : List String) (analyze : String → List ObjectResult) :
    ∀ (l : List (ℕ × Record)) (st : List Record × ℕ) (j : ℕ) (r : Record),
      st.1[j]? = some r →
      (∀ p ∈ l, p.1 = j → selectedForAnalysis disk p.2 = false) →
      (l.foldl (phase2Step disk analyze) st).1[j]? = some r := by
  intro l
  induction l with
  | nil => intro st j r h _; exact h
  | cons p l' ih =>
    intro st j r h hl
    rw [List.foldl_cons]
    apply ih _ j r ?_ (fun q hq => hl q (List.mem_cons_of_mem p hq))
    cases hp : selectedForAnalysis disk p.2 with
    | false =>
      have hstep : phase2Step disk analyze st p = st := by
        rw [phase2Step, hp]; simp
      rw [hstep]
      exact h
    | true =>
      have hij : p.1 ≠ j := fun hpj =>
        absurd hp (by rw [hl p (List.mem_cons_self p l') hpj]; simp)
      have hstep : (phase2Step disk analyze st p).1
          = mergeAll st.1 p.1 (analyze p.2.fichier) p.2.fichier "" := by
        rw [phase2Step, hp]
        simp
      rw [hstep]
      exact mergeAll_preserve st.1 p.1 _ _ _ j r hij h

theorem countP_enumFrom (pr : Record → Bool) :
    ∀ (l : List Record) (n : ℕ),
      (List.enumFrom n l).countP (fun p => pr p.2) = l.countP pr := by
  intro l
  induction l with
  | nil => intro n; rfl
  | cons x xs ih =>
    intro n
    rw [List.enumFrom_cons, List.countP_cons, List.countP_cons, ih]

theorem mem_enum_getElem? (l : List Record) (p : ℕ × Record) (h : p ∈ l.enum) :
    l[p.1]? = some p.2 := by
  obtain ⟨k, v⟩ := p
  have h' : (k, v) ∈ List.enumFrom 0 l := h
  obtain ⟨h1, h2, h3⟩ := List.mem_enumFrom h'
  exact List.getElem?_eq_some.2 ⟨by omega, by simpa using h3.symm⟩

/-- C1 amended: over an unchanged file set, re-running Sync/Discovery is
idempotent.  (1) When every file is already named in the ledger, Phase 1
appends nothing.  (2) When every record is already processed — trimmed name
non-empty and different from the pandas missing marker "nan", and coerced
confidence > 0 — Phase 2 performs zero analysis calls and returns the
ledger unchanged.  (3) The number of analysis calls always equals the
number of records satisfying the selection predicate: filename non-empty,
NOT processed, and source file still on disk.  (4) Any record not selected
— in particular one whose file is absent from disk — is left untouched at
its position. -/
theorem process_inventory_idempotent (disk : List String)
    (analyze : String → List ObjectResult) (df : List Record)
    (images : List String) :
    ((∀ f ∈ images, ∃ r ∈ df, r.fichier = f) → addPlaceholders df images = df)
    ∧ ((∀ r ∈ df, isProcessed r = true) → phase2 disk analyze df = (df, 0))
    ∧ ((phase2 disk analyze df).2 = df.countP (selectedForAnalysis disk))
    ∧ (∀ (j : ℕ) (r : Record), df[j]? = some r → selectedForAnalysis disk r = false →
        (phase2 disk analyze df).1[j]? = some r) := by
  refine ⟨?_, ?_, ?_, ?_⟩
  · intro h
    have hnil : newFiles df images = [] := by
      rw [newFiles, List.filter_eq_nil_iff]
      intro f hf
      obtain ⟨r, hr, hrf⟩ := h f hf
      have hmem : f ∈ df.map (fun r => r.fichier) := List.mem_map.2 ⟨r, hr, hrf⟩
      simp [hmem]
    rw [addPlaceholders, hnil]
    simp [mkPlaceholders]
  · intro hproc
    rw [phase2]
    apply phase2_fold_nop
    intro p hp
    have hmem : p.2 ∈ df := List.mem_iff_getElem?.2 ⟨p.1, mem_enum_getElem? df p hp⟩
    have hip := hproc p.2 hmem
    simp [selectedForAnalysis, hip]
  · rw [phase2, phase2_fold_count]
    have henum : df.enum = List.enumFrom 0 df := rfl
    rw [henum, countP_enumFrom]
    simp [selectedForAnalysis]
  · intro j r hj hsel
    rw [phase2]
    refine phase2_fold_preserve disk analyze df.enum (df, 0) j r hj ?_
    intro p hp hpj
    have hpos := mem_enum_getElem? df p hp
    rw [hpj, hj] at hpos
    obtain rfl : r = p.2 := by injection hpos
    exact hsel

/-- Record with a whitespace-only name, positive confidence, and a file
still on disk — the C1 counterexample input. -/
def c1rec : Record :=
  { emptyRecord with fichier := "a.jpg", nom := " ", fiabilite := .num 50 }

/-- The AI result returned for the C1 counterexample's analysis call. -/
def c1res : ObjectResult :=
  { nom := "Objet", categorie := "Divers", categorieId := "divers",
    quantite := 1, etat := "Neuf", prixUnitaire := 2, prixNeuf := 3,
    fiabilite := 90, box2d := none }

/-- Analysis stub for the C1 counterexample and witness. -/
def c1analyze : String → List ObjectResult := fun _ => [c1res]

/-- C1 counterexample: a ledger whose only record has the non-empty name
" " (a single space) and confidence 50, with its file unchanged on disk,
is re-analyzed — one analysis call and a mutated record — because
`process_inventory` strips the name (`str(...).strip()`) before testing it,
so the claim's plain "name is non-empty" guard does not hold as stated. -/
theorem process_inventory_idempotent_cex :
    (∀ r ∈ [c1rec], ¬ r.nom = "" ∧ 0 < cellToIntD0 r.fiabilite)
    ∧ (phase2 ["a.jpg"] c1analyze [c1rec]).2 = 1
    ∧ ¬ ((phase2 ["a.jpg"] c1analyze [c1rec]).1 = [c1rec]) := by
  refine ⟨?_, ?_, ?_⟩ <;> decide

/-- Fully processed record used by the C1 witness. -/
def c1done : Record :=
  { emptyRecord with fichier := "a.jpg", nom := "Lampe", fiabilite := .num 95 }

/-- C1 witness: on a ledger whose only record is processed, Phase 2 makes
zero analysis calls and returns the ledger unchanged. -/
theorem process_inventory_idempotent_witness :
    phase2 ["a.jpg"] c1analyze [c1done] = ([c1done], 0) :=
  (process_inventory_idempotent ["a.jpg"] c1analyze [c1done] []).2.1 (by decide)
